import Mathlib

/-!
Verification of the Polymarket position-scraper extraction pipeline
(`app/api/scrape/route.ts`).

The in-page extraction logic is embedded shallowly:
* JavaScript strings are `String` / `List Char`;
* JavaScript numbers produced by `parseFloat` on the digit tokens the code
  matches are modelled as exact rationals (`ℚ`), with `NaN` modelled as
  `Option.none`;
* the DOM is an inductive tree (`Dom`), `textContent` is the concatenation
  of all text nodes, `querySelectorAll` is a pre-order traversal filter;
* the specific regular expressions used by the code are implemented as
  explicit leftmost-match scanners over `List Char`.
-/

/-! ### Characters and digit rendering -/

/-- The character for a decimal digit `d < 10`. -/
def digitChar (d : ℕ) : Char := Char.ofNat (48 + d)

/-- Decimal digit list of a natural number (most significant first),
fuel-indexed so that it reduces definitionally. -/
def natDigitsAux : ℕ → ℕ → List Char
  | 0, _ => []
  | fuel + 1, n =>
    if n < 10 then [digitChar n]
    else natDigitsAux fuel (n / 10) ++ [digitChar (n % 10)]

/-- Decimal representation of a natural number, as JavaScript renders the
integral part of a number. -/
def natRepr (n : ℕ) : List Char := natDigitsAux (n + 1) n

/-- ASCII lower-casing, the effect of JavaScript `toLowerCase` on the
characters relevant here. -/
def jsToLower (c : Char) : Char :=
  match c with
  | 'A' => 'a' | 'B' => 'b' | 'C' => 'c' | 'D' => 'd' | 'E' => 'e'
  | 'F' => 'f' | 'G' => 'g' | 'H' => 'h' | 'I' => 'i' | 'J' => 'j'
  | 'K' => 'k' | 'L' => 'l' | 'M' => 'm' | 'N' => 'n' | 'O' => 'o'
  | 'P' => 'p' | 'Q' => 'q' | 'R' => 'r' | 'S' => 's' | 'T' => 't'
  | 'U' => 'u' | 'V' => 'v' | 'W' => 'w' | 'X' => 'x' | 'Y' => 'y'
  | 'Z' => 'z'
  | c => c

/-- JavaScript `\s` on the whitespace characters relevant here. -/
def wsChar (c : Char) : Bool :=
  c = ' ' || c = '\t' || c = '\n' || c = '\r'

/-- JavaScript `\d`. -/
def digitCharTest (c : Char) : Bool := c.isDigit

/-- The character class `[\d,]`. -/
def digitOrComma (c : Char) : Bool := c.isDigit || c = ','

/-- JavaScript `String.prototype.includes` (substring test). -/
def strContains : List Char → List Char → Bool
  | _, [] => true
  | [], _ :: _ => false
  | l@(_ :: t), needle => needle.isPrefixOf l || strContains t needle

/-- JavaScript `String.prototype.startsWith`. -/
def jsStartsWith (s p : String) : Bool := p.data.isPrefixOf s.data

/-! ### Leftmost regex matching

Each `...At` function tries to match one concrete regular expression of the
source anchored at the start of the list; `scanFirst` turns it into the
JavaScript leftmost-match semantics of `String.prototype.match`. -/

/-- Leftmost match: try the anchored matcher at every start position, left
to right. -/
def scanFirst {α : Type} (f : List Char → Option α) : List Char → Option α
  | [] => f []
  | l@(_ :: t) =>
    match f l with
    | some r => some r
    | none => scanFirst f t

/-- Anchored match for `\d+\.?\d*` (as in `/(\d+\.?\d*)/`), returning the
matched token.  With no rigid suffix the greedy parse always succeeds when
a leading digit exists. -/
def numAt (l : List Char) : Option (List Char) :=
  let d1 := l.takeWhile digitCharTest
  let r1 := l.dropWhile digitCharTest
  if d1 = [] then none
  else
    match r1 with
    | '.' :: r2 => some (d1 ++ '.' :: r2.takeWhile digitCharTest)
    | _ => some d1

/-- Anchored match for `(\d+\.?\d*)\s*¢`, returning `(match0, group1)`.
The backtracking of the JavaScript engine reduces to two candidates: the
greedy number including a decimal point, then the number without it. -/
def centAt (l : List Char) : Option (List Char × List Char) :=
  let d1 := l.takeWhile digitCharTest
  let r1 := l.dropWhile digitCharTest
  if d1 = [] then none
  else
    let withDot : Option (List Char × List Char) :=
      match r1 with
      | '.' :: r2 =>
        let d2 := r2.takeWhile digitCharTest
        let r3 := r2.dropWhile digitCharTest
        let sp := r3.takeWhile wsChar
        match r3.dropWhile wsChar with
        | '¢' :: _ => some (d1 ++ '.' :: d2 ++ sp ++ ['¢'], d1 ++ '.' :: d2)
        | _ => none
      | _ => none
    match withDot with
    | some r => some r
    | none =>
      let sp := r1.takeWhile wsChar
      match r1.dropWhile wsChar with
      | '¢' :: _ => some (d1 ++ sp ++ ['¢'], d1)
      | _ => none

/-- Anchored match for `\$[\d,]+\.?\d*`, returning the matched token. -/
def dollarAt (l : List Char) : Option (List Char) :=
  match l with
  | '$' :: r =>
    let d1 := r.takeWhile digitOrComma
    let r1 := r.dropWhile digitOrComma
    if d1 = [] then none
    else
      match r1 with
      | '.' :: r2 => some ('$' :: d1 ++ '.' :: r2.takeWhile digitCharTest)
      | _ => some ('$' :: d1)
  | _ => none

/-- Anchored match for `\$[\d,]+` (the element filter test). -/
def dollarSimpleAt (l : List Char) : Option Unit :=
  match l with
  | '$' :: r => if r.takeWhile digitOrComma = [] then none else some ()
  | _ => none

/-- Anchored match for `([\d,]+\.?\d*)`, returning the group. -/
def valueTokAt (l : List Char) : Option (List Char) :=
  let d1 := l.takeWhile digitOrComma
  let r1 := l.dropWhile digitOrComma
  if d1 = [] then none
  else
    match r1 with
    | '.' :: r2 => some (d1 ++ '.' :: r2.takeWhile digitCharTest)
    | _ => some d1

/-- Case-insensitive literal label match; returns the remainder. -/
def matchLabelCi : List Char → List Char → Option (List Char)
  | [], l => some l
  | _ :: _, [] => none
  | c :: cs, x :: xs => if jsToLower x = c then matchLabelCi cs xs else none

/-- Anchored match for `label<sep>+(\d+\.?\d*)\s*¢` with `/i` (the
`at\s+…¢`, `avg[:\s]+…¢`, `average[:\s]+…¢` patterns), returning group 1. -/
def labeledCentAt (label : List Char) (sep : Char → Bool) (l : List Char) :
    Option (List Char) :=
  match matchLabelCi label l with
  | none => none
  | some r =>
    let s1 := r.takeWhile sep
    let r1 := r.dropWhile sep
    if s1 = [] then none
    else (centAt r1).map (fun m => m.2)

/-- Anchored match for `label[:\s]+\$?([\d,]+\.?\d*)` with `/i` (the
`value`, `PnL`, `profit`, `loss` patterns), returning group 1. -/
def labeledValueTokAt (label : List Char) (l : List Char) :
    Option (List Char) :=
  match matchLabelCi label l with
  | none => none
  | some r =>
    let s1 := r.takeWhile (fun c => c = ':' || wsChar c)
    let r1 := r.dropWhile (fun c => c = ':' || wsChar c)
    if s1 = [] then none
    else
      match r1 with
      | '$' :: r2 => valueTokAt r2
      | _ => valueTokAt r1

/-- First (leftmost) match of `(\d+\.?\d*)\s*¢` as `(match0, group1)`. -/
def firstCentMatch (l : List Char) : Option (List Char × List Char) :=
  scanFirst centAt l

/-- First match of `(\d+\.?\d*)`. -/
def firstNumMatch (l : List Char) : Option (List Char) :=
  scanFirst numAt l

/-- First match of `\$[\d,]+\.?\d*`. -/
def firstDollarMatch (l : List Char) : Option (List Char) :=
  scanFirst dollarAt l

/-- First match of `([\d,]+\.?\d*)`. -/
def firstValueTok (l : List Char) : Option (List Char) :=
  scanFirst valueTokAt l

/-- Test for `/\$[\d,]+/`. -/
def dollarTest (l : List Char) : Bool :=
  (scanFirst dollarSimpleAt l).isSome

/-- Test for `/\d+\.?\d*\s*¢/`. -/
def centTest (l : List Char) : Bool := (firstCentMatch l).isSome

/-- First match of `at\s+(\d+\.?\d*)\s*¢` (`/i`). -/
def firstAtCent (l : List Char) : Option (List Char) :=
  scanFirst (labeledCentAt "at".data wsChar) l

/-- First match of `avg[:\s]+(\d+\.?\d*)\s*¢` (`/i`). -/
def firstAvgCent (l : List Char) : Option (List Char) :=
  scanFirst (labeledCentAt "avg".data (fun c => c = ':' || wsChar c)) l

/-- First match of `average[:\s]+(\d+\.?\d*)\s*¢` (`/i`). -/
def firstAverageCent (l : List Char) : Option (List Char) :=
  scanFirst (labeledCentAt "average".data (fun c => c = ':' || wsChar c)) l

/-! ### JavaScript number parsing and `toFixed(2)` -/

/-- Numeric value of a digit list. -/
def digitsVal (l : List Char) : ℕ :=
  l.foldl (fun a c => a * 10 + (c.toNat - 48)) 0

/-- `parseFloat` on the token shapes produced by the matchers above
(`digits? '.'? digits?` after comma stripping): `none` models `NaN`. -/
def jsParseFloat (l : List Char) : Option ℚ :=
  let ip := l.takeWhile digitCharTest
  let r := l.dropWhile digitCharTest
  match r with
  | '.' :: r2 =>
    let fp := r2.takeWhile digitCharTest
    if ip = [] ∧ fp = [] then none
    else some ((digitsVal ip : ℚ) + (digitsVal fp : ℚ) / 10 ^ fp.length)
  | _ => if ip = [] then none else some (digitsVal ip)

/-- The cents number parsed from `avgPriceValue`
(`avgPriceValue.match(/(\d+\.?\d*)/)` then `parseFloat`). -/
def parsePrice (avg : String) : Option ℚ :=
  (firstNumMatch avg.data).map (fun g => (jsParseFloat g).getD 0)

/-- The number parsed from `value`
(`value.match(/([\d,]+\.?\d*)/)`, commas stripped, then `parseFloat`);
`none` when the token is missing or `parseFloat` yields `NaN`. -/
def parseValue (value : String) : Option ℚ :=
  (firstValueTok value.data).bind
    (fun t => jsParseFloat (t.filter (fun c => c ≠ ',')))

/-- `Number.prototype.toFixed(2)` on an exact rational: round to the
nearest multiple of 1/100, ties away from the smaller number. -/
def toFixed2 (q : ℚ) : String :=
  if q < 0 then
    String.mk ('-' ::
      (natRepr (Int.toNat (Int.ceil (-q * 100 - 1 / 2)) / 100) ++
        '.' :: [digitChar (Int.toNat (Int.ceil (-q * 100 - 1 / 2)) / 10 % 10),
                digitChar (Int.toNat (Int.ceil (-q * 100 - 1 / 2)) % 10)]))
  else
    String.mk
      (natRepr (Int.toNat (Int.floor (q * 100 + 1 / 2)) / 100) ++
        '.' :: [digitChar (Int.toNat (Int.floor (q * 100 + 1 / 2)) / 10 % 10),
                digitChar (Int.toNat (Int.floor (q * 100 + 1 / 2)) % 10)])

/-- The outcome computation of the route (`route.ts` lines 424-450):
given the extracted `avgPriceValue` and `value` strings it parses the
leading numeric tokens, converts the price from cents to dollars, and when
the price is positive and the value number is not `NaN` formats
`value / price` with two decimals, otherwise leaves the outcome empty. -/
def calculateOutcome (avgPriceValue value : String) : String :=
  if avgPriceValue ≠ "" ∧ value ≠ "" then
    let priceInCents : ℚ := (parsePrice avgPriceValue).getD 0
    let priceInDollars : ℚ := priceInCents / 100
    let valueNum : Option ℚ :=
      match firstValueTok value.data with
      | some t => jsParseFloat (t.filter (fun c => c ≠ ','))
      | none => some 0
    match valueNum with
    | some vn =>
      if 0 < priceInDollars then toFixed2 (vn / priceInDollars) else ""
    | none => ""
  else ""

/-! ### URL normalization and deduplication -/

/-- `url.split('?')[0].split('#')[0].toLowerCase().replace(/\/$/, '')`
on the character list. -/
def normalizeUrlChars (l : List Char) : List Char :=
  let noQuery := l.takeWhile (fun c => c ≠ '?')
  let noFragment := noQuery.takeWhile (fun c => c ≠ '#')
  let lowered := noFragment.map jsToLower
  if lowered.getLast? = some '/' then lowered.dropLast else lowered

/-- The DedupKey normalization of `route.ts` line 486. -/
def normalizeUrl (s : String) : String := String.mk (normalizeUrlChars s.data)

/-- The emitted position record (`route.ts` lines 4-10 and 454-460). -/
structure Position where
  marketName : String
  marketUrl : String
  outcome : String
  avgPrice : String
  value : String
deriving DecidableEq, Repr

/-- The DedupKey of a record. -/
def dedupKey (p : Position) : String := normalizeUrl p.marketUrl

/-- The dedup loop of `route.ts` lines 481-493, with the `seenUrls` set
threaded explicitly. -/
def dedupGo : List String → List Position → List Position
  | _, [] => []
  | seen, p :: rest =>
    let k := dedupKey p
    if k ∈ seen then dedupGo seen rest
    else p :: dedupGo (k :: seen) rest

/-- `uniqueResults`: first-seen-wins dedup over normalized market URLs. -/
def dedupPositions (l : List Position) : List Position := dedupGo [] l

/-! ### Market URL resolution, JSON assembly, result classification -/

/-- The market-URL handling of `route.ts` lines 252-263 and the
`if (!marketUrl) return` discard at line 453: `none` means the candidate
record is dropped. -/
def resolveMarketUrl (href : String) : Option String :=
  if href = "" then none
  else
    some
      (if jsStartsWith href "http" then href
       else if jsStartsWith href "/" then "https://polymarket.com" ++ href
       else "https://polymarket.com/" ++ href)

/-- The key/value pairs of the JSON object pushed for each position
(`route.ts` lines 454-460), in source order. -/
def positionJson (p : Position) : List (String × String) :=
  [("marketName", p.marketName), ("marketUrl", p.marketUrl),
   ("outcome", p.outcome), ("avgPrice", p.avgPrice), ("value", p.value)]

/-- The HTTP response produced by the route after scraping succeeds
(`route.ts` lines 501-513). -/
structure ScrapeResponse where
  status : ℕ
  positions : List Position
  count : ℕ
  error : Option String
  message : Option String
deriving DecidableEq, Repr

/-- Result assembly: zero records give the diagnostic 200 "No positions
found" response; otherwise the records and their count are returned. -/
def assembleResult (positions : List Position) : ScrapeResponse :=
  if positions.length = 0 then
    { status := 200
      positions := []
      count := 0
      error := some "No positions found"
      message := some "The page may not have loaded correctly or the profile has no positions. Make sure the URL includes ?tab=positions" }
  else
    { status := 200
      positions := positions
      count := positions.length
      error := none
      message := none }

/-! ### The scroll-stability loop (`route.ts` lines 119-161) -/

/-- The mutable state of the scroll loop. -/
structure ScrollState where
  lastHeight : ℕ
  lastLinkCount : ℕ
  scrollCount : ℕ
  stableCount : ℕ
deriving DecidableEq, Repr

/-- `maxScrolls`. -/
def maxScrolls : ℕ := 50

/-- The stability threshold (`stableCount < 3`). -/
def stableThreshold : ℕ := 3

/-- One iteration of the scroll loop body, given the sampled
`(scrollHeight, link count)` pair. -/
def scrollStep (sample : ℕ × ℕ) (s : ScrollState) : ScrollState :=
  { lastHeight := sample.1
    lastLinkCount := sample.2
    scrollCount := s.scrollCount + 1
    stableCount :=
      if sample.1 = s.lastHeight ∧ sample.2 = s.lastLinkCount then
        s.stableCount + 1
      else 0 }

/-- Whether the `while` condition still holds. -/
def scrollCond (s : ScrollState) : Prop :=
  s.scrollCount < maxScrolls ∧ s.stableCount < stableThreshold

instance (s : ScrollState) : Decidable (scrollCond s) := by
  unfold scrollCond; infer_instance

/-- The loop state after `i` scheduling steps, where `sample i` is the
`(scrollHeight, link count)` pair the page reports at iteration `i`; once
the `while` condition fails the state no longer changes. -/
def scrollRun (sample : ℕ → ℕ × ℕ) : ℕ → ScrollState
  | 0 => ⟨0, 0, 0, 0⟩
  | i + 1 =>
    let s := scrollRun sample i
    if scrollCond s then scrollStep (sample i) s else s

/-! ### DOM model and the field-extraction cascades
(`route.ts` lines 265-422) -/

/-- A DOM subtree: element nodes carry an (upper-case, as `tagName`
reports it) tag and children; text nodes carry text. -/
inductive Dom where
  | elem : String → List Dom → Dom
  | text : String → Dom

mutual

/-- `textContent`: concatenation of all text in the subtree. -/
def textContent : Dom → List Char
  | .elem _ cs => textContentList cs
  | .text s => s.data

/-- `textContent` of a forest, in order. -/
def textContentList : List Dom → List Char
  | [] => []
  | d :: ds => textContent d ++ textContentList ds

end

/-- `tagName` of a node. -/
def tagOf : Dom → String
  | .elem t _ => t
  | .text _ => ""

mutual

/-- All element descendants (excluding the root) in document (pre-)order,
each paired with its parent element, as `querySelectorAll` enumerates
them. -/
def domDescendants : Dom → List (Dom × Dom)
  | .text _ => []
  | d@(.elem _ cs) => domDescendantsList d cs

/-- Descendant enumeration of a forest below `parent`. -/
def domDescendantsList : Dom → List Dom → List (Dom × Dom)
  | _, [] => []
  | parent, c :: rest =>
    (match c with
     | .elem _ _ => (c, parent) :: domDescendants c
     | .text _ => []) ++ domDescendantsList parent rest

end

/-- `container.querySelectorAll('td, th')`. -/
def cells (c : Dom) : List Dom :=
  (domDescendants c).filterMap
    (fun pe => if tagOf pe.1 = "TD" || tagOf pe.1 = "TH" then some pe.1 else none)

/-- Whether a node has one of the tags of
`querySelectorAll('span, div, p, td, th')`. -/
def textBearingTag (d : Dom) : Bool :=
  tagOf d = "SPAN" || tagOf d = "DIV" || tagOf d = "P" ||
  tagOf d = "TD" || tagOf d = "TH"

/-- `cellLower.includes('avg') || cellLower.includes('average') ||
cellLower.includes('at')`. -/
def avgKeywordCell (s : List Char) : Bool :=
  let lower := s.map jsToLower
  strContains lower "avg".data || strContains lower "average".data ||
  strContains lower "at".data

/-- Avg-price strategy 0 (`route.ts` 291-305): on a table row, the first
cell whose text has an average keyword and a `<number>¢` token gives that
token. -/
def avgCellScan (c : Dom) : Option String :=
  if tagOf c = "TR" && !(cells c).isEmpty then
    ((cells c).find? (fun cell =>
        avgKeywordCell (textContent cell) &&
        (firstCentMatch (textContent cell)).isSome)).bind
      (fun cell => (firstCentMatch (textContent cell)).map
        (fun m => String.mk m.1))
  else none

/-- `priceElements` (`route.ts` 307-311): descendant text-bearing elements
whose text contains a `<number>¢` token, with their parents. -/
def priceElements (c : Dom) : List (Dom × Dom) :=
  (domDescendants c).filter
    (fun pe => textBearingTag pe.1 && centTest (textContent pe.1))

/-- The "is avg" context test (`route.ts` 318-325): self text plus parent
text, lower-cased, matches one of the average-labelled patterns. -/
def isAvgContext (el parent : Dom) : Bool :=
  let ctx := (textContent el ++ ' ' :: textContent parent).map jsToLower
  (firstAtCent ctx).isSome || (firstAvgCent ctx).isSome ||
  (firstAverageCent ctx).isSome

/-- Avg-price strategies 1-2 (`route.ts` 307-332): the first price element
whose context is an average context gives its `<number>¢` token. -/
def avgElemScan (c : Dom) : Option String :=
  ((priceElements c).find? (fun pe =>
      (firstCentMatch (textContent pe.1)).isSome && isAvgContext pe.1 pe.2)).bind
    (fun pe => (firstCentMatch (textContent pe.1)).map (fun m => String.mk m.1))

/-- Avg-price strategy 3 (`route.ts` 334-349): match the container text
against the `avg`, `average`, `at` patterns in that order and append `¢`
to the captured number. -/
def avgTextScan (c : Dom) : Option String :=
  (((firstAvgCent (textContent c)).orElse
      (fun _ => firstAverageCent (textContent c))).orElse
    (fun _ => firstAtCent (textContent c))).map
    (fun g => String.mk (g ++ ['¢']))

/-- The earlier `avgPrice` capture (`route.ts` 273-286): the `at`, `avg`,
`average` patterns in that order against the container text. -/
def avgEarlyCapture (c : Dom) : Option (List Char) :=
  ((firstAtCent (textContent c)).orElse
      (fun _ => firstAvgCent (textContent c))).orElse
    (fun _ => firstAverageCent (textContent c))

/-- Avg-price strategy 4 (`route.ts` 351-354): reuse the earlier capture,
appending `¢`. -/
def avgReuseScan (c : Dom) : Option String :=
  (avgEarlyCapture c).map (fun g => String.mk (g ++ ['¢']))

/-- The sequential avg-price extractor (`route.ts` 288-354): strategy 0
writes `avgPriceValue`, the strategy 1-2 loop overwrites it whenever it
finds an average-context price element, and strategies 3 and 4 run only
while `avgPriceValue` is still empty. -/
def extractAvgPriceValue (c : Dom) : String :=
  let s0 := (avgCellScan c).getD ""
  let s2 :=
    match avgElemScan c with
    | some m => m
    | none => s0
  let s3 := if s2 = "" then (avgTextScan c).getD "" else s2
  if s3 = "" then (avgReuseScan c).getD "" else s3

/-- `value`/`pnl`/`profit`/`loss` keyword test on lower-cased text. -/
def valKeyword (s : List Char) : Bool :=
  let lower := s.map jsToLower
  strContains lower "value".data || strContains lower "pnl".data ||
  strContains lower "profit".data || strContains lower "loss".data

/-- Value strategy 0 (`route.ts` 359-377): on a table row, prefer the
first dollar-bearing cell with a keyword; otherwise take the first
dollar-bearing cell. -/
def valCellScan (c : Dom) : Option String :=
  if tagOf c = "TR" && !(cells c).isEmpty then
    (let withDollar := (cells c).filter
        (fun cell => (firstDollarMatch (textContent cell)).isSome)
     ((withDollar.find? (fun cell => valKeyword (textContent cell))).orElse
        (fun _ => withDollar.head?)).bind
       (fun cell => (firstDollarMatch (textContent cell)).map String.mk))
  else none

/-- `valueElements` (`route.ts` 380-383): descendant text-bearing elements
whose text passes `/\$[\d,]+/`. -/
def valueElements (c : Dom) : List (Dom × Dom) :=
  (domDescendants c).filter
    (fun pe => textBearingTag pe.1 && dollarTest (textContent pe.1))

/-- Value strategy 1, keyword branch (`route.ts` 385-399): the first value
element whose own text mentions value/PnL/profit/loss gives its dollar
token and stops the loop. -/
def valElemKwScan (c : Dom) : Option String :=
  ((valueElements c).find? (fun pe =>
      (firstDollarMatch (textContent pe.1)).isSome &&
      valKeyword (textContent pe.1))).bind
    (fun pe => (firstDollarMatch (textContent pe.1)).map String.mk)

/-- Value strategy 1, fallback branch: the first value element with a
dollar token (taken only while `value` is still empty). -/
def valElemFirstScan (c : Dom) : Option String :=
  ((valueElements c).find? (fun pe =>
      (firstDollarMatch (textContent pe.1)).isSome)).bind
    (fun pe => (firstDollarMatch (textContent pe.1)).map String.mk)

/-- JavaScript `trim` on the whitespace characters relevant here. -/
def jsTrim (l : List Char) : List Char :=
  ((l.dropWhile wsChar).reverse.dropWhile wsChar).reverse

/-- Anchored `label[:\s]+` (`/i`); returns the remainder after the
match. -/
def labelSepAt (label : List Char) (l : List Char) : Option (List Char) :=
  match matchLabelCi label l with
  | none => none
  | some r =>
    if r.takeWhile (fun c => c = ':' || wsChar c) = [] then none
    else some (r.dropWhile (fun c => c = ':' || wsChar c))

/-- `String.prototype.replace` with a `label[:\s]+` pattern: drop the
first occurrence. -/
def replaceLabelSep (label : List Char) : List Char → List Char
  | [] => []
  | l@(c :: t) =>
    match labelSepAt label l with
    | some rest => rest
    | none => c :: replaceLabelSep label t

/-- First match of `label[:\s]+\$?([\d,]+\.?\d*)` (`/i`). -/
def firstLabeledValue (label : String) (l : List Char) : Option (List Char) :=
  scanFirst (labeledValueTokAt label.data) l

/-- Value strategy 2 (`route.ts` 401-422): the bare dollar pattern first
(its match cleaned of label prefixes and trimmed), then the labelled
value/PnL/profit/loss patterns with a `$` prepended to the capture. -/
def valTextScan (c : Dom) : Option String :=
  let t := textContent c
  match firstDollarMatch t with
  | some m0 =>
    some (String.mk (jsTrim (replaceLabelSep "loss".data
      (replaceLabelSep "profit".data (replaceLabelSep "pnl".data
        (replaceLabelSep "value".data m0))))))
  | none =>
    (((firstLabeledValue "value" t).orElse
        (fun _ => firstLabeledValue "pnl" t)).orElse
      (fun _ => (firstLabeledValue "profit" t).orElse
        (fun _ => firstLabeledValue "loss" t))).map
      (fun g => String.mk ('$' :: g))

/-- The sequential value extractor (`route.ts` 356-422): strategy 0 writes
`value`; the strategy 1 loop overwrites it on a keyword element (breaking)
or, while `value` is still empty, takes the first dollar element; strategy
2 runs only while `value` is still empty. -/
def extractValue (c : Dom) : String :=
  let v0 := (valCellScan c).getD ""
  let v1 :=
    match valElemKwScan c with
    | some m => m
    | none => if v0 = "" then (valElemFirstScan c).getD "" else v0
  if v1 = "" then (valTextScan c).getD "" else v1

/-! ### Helper lemmas -/

theorem String.mk_ne_empty {l : List Char} (h : l ≠ []) : String.mk l ≠ "" := by
  intro hc
  exact h (congrArg String.data hc)

theorem dedupGo_sublist (seen : List String) (l : List Position) :
    (dedupGo seen l).Sublist l := by
  induction l generalizing seen with
  | nil => simp [dedupGo]
  | cons p rest ih =>
    simp only [dedupGo]
    split
    · exact (ih seen).cons p
    · exact (ih (dedupKey p :: seen)).cons₂ p

theorem dedupGo_key_not_seen {seen : List String} {l : List Position}
    {q : Position} (h : q ∈ dedupGo seen l) : dedupKey q ∉ seen := by
  induction l generalizing seen with
  | nil => simp [dedupGo] at h
  | cons p rest ih =>
    simp only [dedupGo] at h
    split at h
    · exact ih h
    · rcases List.mem_cons.mp h with rfl | h2
      · assumption
      · intro hs
        exact ih h2 (List.mem_cons_of_mem _ hs)

theorem dedupGo_pairwise (seen : List String) (l : List Position) :
    List.Pairwise (fun a b => dedupKey a ≠ dedupKey b) (dedupGo seen l) := by
  induction l generalizing seen with
  | nil => simp [dedupGo]
  | cons p rest ih =>
    simp only [dedupGo]
    split
    · exact ih seen
    · refine List.Pairwise.cons (fun b hb heq => ?_) (ih _)
      exact dedupGo_key_not_seen hb (heq ▸ List.mem_cons_self _ _)

theorem dedupGo_find_first {seen : List String} {l : List Position}
    {q : Position} (h : q ∈ dedupGo seen l) :
    l.find? (fun p => dedupKey p == dedupKey q) = some q := by
  induction l generalizing seen with
  | nil => simp [dedupGo] at h
  | cons p rest ih =>
    simp only [dedupGo] at h
    split at h
    · have hq := dedupGo_key_not_seen h
      have hne : dedupKey p ≠ dedupKey q := by
        intro heq
        exact hq (heq ▸ ‹dedupKey p ∈ seen›)
      rw [List.find?_cons_of_neg _ (by simpa using hne)]
      exact ih h
    · rcases List.mem_cons.mp h with rfl | h2
      · rw [List.find?_cons_of_pos _ (by simp)]
      · have hq := dedupGo_key_not_seen h2
        have hne : dedupKey p ≠ dedupKey q := by
          intro heq
          exact hq (heq ▸ List.mem_cons_self _ _)
        rw [List.find?_cons_of_neg _ (by simpa using hne)]
        exact ih h2

theorem dedupGo_covers {seen : List String} {l : List Position}
    {p : Position} (hp : p ∈ l) (hs : dedupKey p ∉ seen) :
    ∃ q ∈ dedupGo seen l, dedupKey q = dedupKey p := by
  induction l generalizing seen with
  | nil => simp at hp
  | cons a rest ih =>
    simp only [dedupGo]
    rcases List.mem_cons.mp hp with rfl | h2
    · split
      · exact absurd ‹dedupKey p ∈ seen› hs
      · exact ⟨p, List.mem_cons_self _ _, rfl⟩
    · split
      · exact ih h2 hs
      · by_cases hk : dedupKey p = dedupKey a
        · exact ⟨a, List.mem_cons_self _ _, hk.symm⟩
        · obtain ⟨q, hq, hkey⟩ := ih h2 (by
            intro hmem
            rcases List.mem_cons.mp hmem with heq | hmem2
            · exact hk heq
            · exact hs hmem2)
          exact ⟨q, List.mem_cons_of_mem _ hq, hkey⟩

/-! ### C3: deduplication keeps the first record per key, in order -/

/-- C3: the deduplicated output has pairwise distinct DedupKeys, is an
order-preserving subsequence of the input, each output record is the first
input record with its key, and every input key is represented. -/
theorem dedup_first_seen (l : List Position) :
    List.Pairwise (fun a b => dedupKey a ≠ dedupKey b) (dedupPositions l) ∧
    (dedupPositions l).Sublist l ∧
    (∀ q ∈ dedupPositions l,
      l.find? (fun p => dedupKey p == dedupKey q) = some q) ∧
    (∀ p ∈ l, ∃ q ∈ dedupPositions l, dedupKey q = dedupKey p) :=
  ⟨dedupGo_pairwise [] l, dedupGo_sublist [] l,
    fun _ hq => dedupGo_find_first hq,
    fun _ hp => dedupGo_covers hp (by simp)⟩

/-- Two records whose market URLs differ only by query string. -/
def posA : Position :=
  ⟨"A", "https://polymarket.com/event/x?tid=1", "", "", ""⟩

/-- Second record with the same DedupKey. -/
def posB : Position := ⟨"B", "https://polymarket.com/event/x", "", "", ""⟩

/-- C3 witness: on two records differing only by query string, the first
record is kept and the emitted keys are pairwise distinct. -/
theorem dedup_first_seen_witness :
    [posA, posB].find? (fun p => dedupKey p == dedupKey posA) = some posA ∧
    List.Pairwise (fun a b => dedupKey a ≠ dedupKey b)
      (dedupPositions [posA, posB]) :=
  ⟨(dedup_first_seen [posA, posB]).2.2.1 posA (by decide),
    (dedup_first_seen [posA, posB]).1⟩

/-! ### C10: deduplication never modifies the records it emits -/

/-- C10: the dedup output is a subsequence of the input and every emitted
record is (field-for-field) one of the input records; normalization is
applied only to the comparison key, never to the stored record. -/
theorem dedup_emits_input_records (l : List Position) :
    (dedupPositions l).Sublist l ∧
    ∀ q ∈ dedupPositions l, ∃ p ∈ l, q = p := by
  refine ⟨dedupGo_sublist [] l, fun q hq => ⟨q, ?_, rfl⟩⟩
  exact (dedupGo_sublist [] l).subset hq

/-- C10 witness: a record with query string, fragment and upper-case
letters in its URL is emitted unchanged. -/
theorem dedup_emits_input_records_witness :
    (dedupPositions [posA]).Sublist [posA] ∧ ∃ p ∈ [posA], posA = p :=
  ⟨(dedup_emits_input_records [posA]).1,
    (dedup_emits_input_records [posA]).2 posA (by decide)⟩

/-! ### C7: zero records give an EmptySuccess 200 response -/

/-- C7: completing with zero records yields HTTP 200, an empty positions
array, count zero, and a non-empty diagnostic message. -/
theorem empty_result_status (ps : List Position) (h : ps.length = 0) :
    (assembleResult ps).status = 200 ∧ (assembleResult ps).positions = [] ∧
    (assembleResult ps).count = 0 ∧
    ∃ m, (assembleResult ps).message = some m ∧ m ≠ "" := by
  unfold assembleResult
  rw [if_pos h]
  exact ⟨rfl, rfl, rfl, _, rfl, by decide⟩

/-- C7 witness: the empty record list. -/
theorem empty_result_status_witness :
    (assembleResult []).status = 200 ∧ (assembleResult []).positions = [] ∧
    (assembleResult []).count = 0 ∧
    ∃ m, (assembleResult []).message = some m ∧ m ≠ "" :=
  empty_result_status [] rfl

/-! ### C8: emitted JSON field names -/

/-- The PositionRecord example of the specification. -/
def samplePosition : Position :=
  ⟨"Will X happen?", "https://site.example/event/x", "120.50", "45¢", "$5,423"⟩

/-- C8 counterexample: the emitted JSON keys are `marketName, marketUrl,
outcome, avgPrice, value`; no `pricedQuantityText` or `monetaryValueText`
key is emitted. -/
theorem position_json_names_counterexample :
    (positionJson samplePosition).map Prod.fst =
      ["marketName", "marketUrl", "outcome", "avgPrice", "value"] ∧
    ¬ ("pricedQuantityText" ∈ (positionJson samplePosition).map Prod.fst) ∧
    ¬ ("monetaryValueText" ∈ (positionJson samplePosition).map Prod.fst) := by
  refine ⟨rfl, by decide, by decide⟩

/-! ### C9: the scroll-stability loop -/

theorem scrollRun_count (sample : ℕ → ℕ × ℕ) :
    ∀ m, scrollCond (scrollRun sample m) →
      (scrollRun sample m).scrollCount = m := by
  intro m
  induction m with
  | zero => intro _; rfl
  | succ m ih =>
    intro hcond
    by_cases hc : scrollCond (scrollRun sample m)
    · simp only [scrollRun, if_pos hc, scrollStep]
      rw [ih hc]
    · simp only [scrollRun, if_neg hc] at hcond ⊢
      exact absurd hcond hc

theorem scrollRun_freeze (sample : ℕ → ℕ × ℕ) (m : ℕ)
    (h : ¬ scrollCond (scrollRun sample m)) :
    ∀ p, scrollRun sample (m + p) = scrollRun sample m := by
  intro p
  induction p with
  | zero => rfl
  | succ p ih =>
    have : m + (p + 1) = (m + p) + 1 := by omega
    rw [this]
    simp only [scrollRun]
    rw [ih, if_neg h]

theorem scrollRun_stops : ∀ (sample : ℕ → ℕ × ℕ),
    ¬ scrollCond (scrollRun sample maxScrolls) := by
  intro sample hc
  have := scrollRun_count sample maxScrolls hc
  have h2 := hc.1
  rw [this] at h2
  exact lt_irrefl _ h2

/-- C9: the scroll loop terminates: for every stream of sampled
`(scrollHeight, link count)` pairs there is a stopping index `k ≤ 50`
where the stability counter has just reached 3 or the iteration budget is
exhausted — whichever comes first, since the loop condition holds strictly
before `k` — the state freezes from `k` on, each executed iteration applies
`scrollStep`, which increments the stability counter exactly when both
sampled signals equal the stored previous sample and resets it to zero
otherwise, and the stored previous sample after iteration `j` is
`sample j`. -/
theorem scroll_loop_spec (sample : ℕ → ℕ × ℕ) :
    ∃ k, k ≤ maxScrolls ∧
      ((scrollRun sample k).stableCount = stableThreshold ∨ k = maxScrolls) ∧
      (∀ j, j < k → (scrollRun sample j).stableCount < stableThreshold ∧
        (scrollRun sample j).scrollCount = j ∧
        scrollRun sample (j + 1) = scrollStep (sample j) (scrollRun sample j)) ∧
      (∀ m, k ≤ m → scrollRun sample m = scrollRun sample k) ∧
      (∀ q s, (scrollStep q s).stableCount =
        if q.1 = s.lastHeight ∧ q.2 = s.lastLinkCount then s.stableCount + 1
        else 0) ∧
      (∀ j, j < k → (scrollRun sample (j + 1)).lastHeight = (sample j).1 ∧
        (scrollRun sample (j + 1)).lastLinkCount = (sample j).2) := by
  have hex : ∃ n, ¬ scrollCond (scrollRun sample n) :=
    ⟨maxScrolls, scrollRun_stops sample⟩
  refine ⟨Nat.find hex, ?_, ?_, ?_, ?_, ?_, ?_⟩
  · exact Nat.find_min' hex (scrollRun_stops sample)
  · -- at the stopping index: the counter has just reached 3, or k = 50
    have hk : ¬ scrollCond (scrollRun sample (Nat.find hex)) :=
      Nat.find_spec hex
    have hle : Nat.find hex ≤ maxScrolls :=
      Nat.find_min' hex (scrollRun_stops sample)
    rcases Nat.eq_zero_or_pos (Nat.find hex) with h0 | hpos
    · exfalso
      rw [h0] at hk
      exact hk (show scrollCond ⟨0, 0, 0, 0⟩ by decide)
    · obtain ⟨j, hkeq⟩ : ∃ j, Nat.find hex = j + 1 :=
        ⟨Nat.find hex - 1, by omega⟩
      rw [hkeq] at hk hle ⊢
      have hj : scrollCond (scrollRun sample j) :=
        not_not.mp (Nat.find_min hex (by omega))
      have hstep : scrollRun sample (j + 1) =
          scrollStep (sample j) (scrollRun sample j) := by
        simp only [scrollRun, if_pos hj]
      have hcount : (scrollRun sample j).scrollCount = j :=
        scrollRun_count sample j hj
      have hcountk : (scrollRun sample (j + 1)).scrollCount = j + 1 := by
        rw [hstep]; simp only [scrollStep]; rw [hcount]
      have hstab : (scrollRun sample (j + 1)).stableCount ≤
          (scrollRun sample j).stableCount + 1 := by
        rw [hstep]; simp only [scrollStep]
        split <;> omega
      unfold scrollCond at hk
      push_neg at hk
      by_cases hcase : maxScrolls ≤ (scrollRun sample (j + 1)).scrollCount
      · right
        rw [hcountk] at hcase
        omega
      · left
        have h3 := hk (by omega)
        have hslt := hj.2
        unfold stableThreshold at h3 hslt ⊢
        omega
  · intro j hj
    have hcond : scrollCond (scrollRun sample j) :=
      not_not.mp (Nat.find_min hex hj)
    exact ⟨hcond.2, scrollRun_count sample j hcond,
      by simp only [scrollRun, if_pos hcond]⟩
  · intro m hm
    obtain ⟨p, rfl⟩ : ∃ p, m = Nat.find hex + p := ⟨m - Nat.find hex, by omega⟩
    exact scrollRun_freeze sample _ (Nat.find_spec hex) p
  · intro q s; rfl
  · intro j hj
    have hcond : scrollCond (scrollRun sample j) :=
      not_not.mp (Nat.find_min hex hj)
    constructor <;> simp only [scrollRun, if_pos hcond, scrollStep]

/-- C9 witness: the constant sample stream `(1, 1)`. -/
theorem scroll_loop_spec_witness :
    ∃ k, k ≤ maxScrolls ∧
      ((scrollRun (fun _ => (1, 1)) k).stableCount = stableThreshold ∨
        k = maxScrolls) ∧
      (∀ j, j < k →
        (scrollRun (fun _ => (1, 1)) j).stableCount < stableThreshold ∧
        (scrollRun (fun _ => (1, 1)) j).scrollCount = j ∧
        scrollRun (fun _ => (1, 1)) (j + 1) =
          scrollStep ((1, 1)) (scrollRun (fun _ => (1, 1)) j)) ∧
      (∀ m, k ≤ m → scrollRun (fun _ => (1, 1)) m =
        scrollRun (fun _ => (1, 1)) k) ∧
      (∀ q s, (scrollStep q s).stableCount =
        if q.1 = s.lastHeight ∧ q.2 = s.lastLinkCount then s.stableCount + 1
        else 0) ∧
      (∀ j, j < k →
        (scrollRun (fun _ => (1, 1)) (j + 1)).lastHeight = 1 ∧
        (scrollRun (fun _ => (1, 1)) (j + 1)).lastLinkCount = 1) :=
  scroll_loop_spec (fun _ => (1, 1))

/-! ### C4: DedupKey normalization laws -/

theorem takeWhile_append_all {p : Char → Bool} {l : List Char}
    (m : List Char) (h : ∀ c ∈ l, p c) :
    (l ++ m).takeWhile p = l ++ m.takeWhile p := by
  rw [List.takeWhile_append, if_pos]
  rw [List.takeWhile_eq_self_iff.mpr h]

theorem takeWhile_append_stop {p : Char → Bool} {l : List Char}
    (m : List Char) (h : ¬ ∀ c ∈ l, p c) :
    (l ++ m).takeWhile p = l.takeWhile p := by
  rw [List.takeWhile_append, if_neg]
  intro hlen
  exact h (List.takeWhile_eq_self_iff.mp
    ((List.takeWhile_prefix p).eq_of_length hlen))

theorem jsToLower_eq_slash {c : Char} : jsToLower c = '/' ↔ c = '/' := by
  constructor
  · intro h
    unfold jsToLower at h
    split at h <;> first | exact h | exact absurd h (by decide)
  · rintro rfl
    rfl

theorem getLast_map_jsToLower (l : List Char) :
    (l.map jsToLower).getLast? = some '/' ↔ l.getLast? = some '/' := by
  induction l with
  | nil => simp
  | cons a t ih =>
    cases t with
    | nil => simp [jsToLower_eq_slash]
    | cons b t2 =>
      rw [List.map_cons, List.map_cons, List.getLast?_cons_cons,
        List.getLast?_cons_cons, ← List.map_cons]
      exact ih

theorem normalizeUrlChars_append_query (l : List Char) :
    normalizeUrlChars (l ++ "?q=1".data) = normalizeUrlChars l := by
  simp only [normalizeUrlChars]
  by_cases hall : ∀ c ∈ l, (fun c => decide (c ≠ '?')) c = true
  · rw [takeWhile_append_all _ hall, show ("?q=1".data.takeWhile
      (fun c => decide (c ≠ '?'))) = [] from rfl, List.append_nil,
      List.takeWhile_eq_self_iff.mpr hall]
  · rw [takeWhile_append_stop _ hall]

theorem normalizeUrlChars_append_slash (l : List Char)
    (h : l.getLast? ≠ some '/') :
    normalizeUrlChars (l ++ "/".data) = normalizeUrlChars l := by
  simp only [normalizeUrlChars]
  by_cases hq : ∀ c ∈ l, (fun c => decide (c ≠ '?')) c = true
  · rw [takeWhile_append_all _ hq, show ("/".data.takeWhile
      (fun c => decide (c ≠ '?'))) = "/".data from rfl,
      List.takeWhile_eq_self_iff.mpr hq]
    by_cases hh : ∀ c ∈ l, (fun c => decide (c ≠ '#')) c = true
    · rw [takeWhile_append_all _ hh, show ("/".data.takeWhile
        (fun c => decide (c ≠ '#'))) = "/".data from rfl,
        List.takeWhile_eq_self_iff.mpr hh]
      rw [show ("/".data : List Char) = ['/'] from rfl, List.map_append]
      rw [show (['/'].map jsToLower) = ['/'] from rfl]
      rw [List.getLast?_concat, if_pos rfl, List.dropLast_concat]
      rw [if_neg]
      intro hc
      exact h ((getLast_map_jsToLower l).mp hc)
    · rw [takeWhile_append_stop _ hh]
  · rw [takeWhile_append_stop _ hq]

/-- C4: DedupKey normalization is a pure function satisfying
`normalize(u + "?q=1") = normalize(u) = normalize(u + "/")` for every base
URL `u` without trailing slash. -/
theorem normalizeUrl_pure (u : String) (h : u.data.getLast? ≠ some '/') :
    normalizeUrl (u ++ "?q=1") = normalizeUrl u ∧
    normalizeUrl (u ++ "/") = normalizeUrl u := by
  constructor
  · show String.mk (normalizeUrlChars (u.data ++ "?q=1".data)) = _
    rw [normalizeUrlChars_append_query]
    rfl
  · show String.mk (normalizeUrlChars (u.data ++ "/".data)) = _
    rw [normalizeUrlChars_append_slash _ h]
    rfl

/-- C4 witness: a mixed-case base URL without trailing slash. -/
theorem normalizeUrl_pure_witness :
    normalizeUrl ("https://Polymarket.com/event/ABC" ++ "?q=1") =
      normalizeUrl "https://Polymarket.com/event/ABC" ∧
    normalizeUrl ("https://Polymarket.com/event/ABC" ++ "/") =
      normalizeUrl "https://Polymarket.com/event/ABC" :=
  normalizeUrl_pure "https://Polymarket.com/event/ABC" (by decide)

/-! ### Number-formatting lemmas -/

theorem digitChar_isDigit {d : ℕ} (h : d < 10) : (digitChar d).isDigit = true := by
  interval_cases d <;> decide

theorem natDigitsAux_ne_nil (fuel n : ℕ) : natDigitsAux (fuel + 1) n ≠ [] := by
  unfold natDigitsAux
  split
  · simp
  · simp

theorem natDigitsAux_digits :
    ∀ fuel n, ∀ c ∈ natDigitsAux fuel n, c.isDigit = true := by
  intro fuel
  induction fuel with
  | zero => intro n c hc; simp [natDigitsAux] at hc
  | succ fuel ih =>
    intro n c hc
    unfold natDigitsAux at hc
    split at hc
    · rw [List.mem_singleton] at hc
      subst hc
      exact digitChar_isDigit ‹n < 10›
    · rcases List.mem_append.mp hc with h1 | h2
      · exact ih _ c h1
      · rw [List.mem_singleton] at h2
        subst h2
        exact digitChar_isDigit (Nat.mod_lt _ (by norm_num))

/-- A numeric string with exactly two decimal places: digits, a dot, and
exactly two digits. -/
def TwoDecimalString (s : String) : Prop :=
  ∃ a b, s.data = a ++ '.' :: b ∧ a ≠ [] ∧ (∀ c ∈ a, c.isDigit = true) ∧
    b.length = 2 ∧ ∀ c ∈ b, c.isDigit = true

theorem toFixed2_two_decimal {q : ℚ} (h : 0 ≤ q) :
    TwoDecimalString (toFixed2 q) := by
  unfold toFixed2
  rw [if_neg (not_lt.mpr h)]
  refine ⟨natRepr (Int.toNat (Int.floor (q * 100 + 1 / 2)) / 100),
    [digitChar (Int.toNat (Int.floor (q * 100 + 1 / 2)) / 10 % 10),
     digitChar (Int.toNat (Int.floor (q * 100 + 1 / 2)) % 10)],
    rfl, natDigitsAux_ne_nil _ _, fun c hc => natDigitsAux_digits _ _ c hc,
    rfl, ?_⟩
  intro c hc
  rcases List.mem_cons.mp hc with rfl | hc2
  · exact digitChar_isDigit (Nat.mod_lt _ (by norm_num))
  · rw [List.mem_singleton] at hc2
    subst hc2
    exact digitChar_isDigit (Nat.mod_lt _ (by norm_num))

theorem dot_mem_toFixed2 (q : ℚ) : '.' ∈ (toFixed2 q).data := by
  unfold toFixed2
  split
  · show '.' ∈ '-' :: (_ ++ '.' :: _)
    simp
  · show '.' ∈ _ ++ '.' :: _
    simp

theorem toFixed2_zero : toFixed2 0 = "0.00" := by
  rw [toFixed2, if_neg (by norm_num)]
  have h : Int.toNat (Int.floor ((0 : ℚ) * 100 + 1 / 2)) = 0 := by
    norm_num
  rw [h]
  decide

/-! ### Parsing lemmas -/

theorem jsParseFloat_nonneg {l : List Char} {q : ℚ}
    (h : jsParseFloat l = some q) : 0 ≤ q := by
  simp only [jsParseFloat] at h
  split at h
  · split at h
    · exact Option.noConfusion h
    · rw [Option.some_inj] at h
      subst h
      positivity
  · split at h
    · exact Option.noConfusion h
    · rw [Option.some_inj] at h
      subst h
      positivity

theorem parsePrice_empty : parsePrice "" = none := rfl

theorem parseValue_empty : parseValue "" = none := rfl

/-- The possible results of the outcome computation: empty, or a
two-decimal rendering of a nonnegative rational. -/
theorem calculateOutcome_cases (avg value : String) :
    calculateOutcome avg value = "" ∨
    ∃ q, 0 ≤ q ∧ calculateOutcome avg value = toFixed2 q := by
  simp only [calculateOutcome]
  split
  · rcases hft : firstValueTok value.data with _ | t
    · simp only [hft]
      split
      · right
        refine ⟨0 / ((parsePrice avg).getD 0 / 100), by rw [zero_div], rfl⟩
      · left; rfl
    · simp only [hft]
      rcases hpf : jsParseFloat (t.filter (fun c => c ≠ ',')) with _ | vn
      · left
        simp only [hpf]
      · simp only [hpf]
        split
        · right
          refine ⟨vn / ((parsePrice avg).getD 0 / 100), ?_, rfl⟩
          exact div_nonneg (jsParseFloat_nonneg hpf) (le_of_lt ‹_›)
        · left; rfl
  · left; rfl

theorem calc_empty_of_price_nonpos (avg value : String)
    (h : (parsePrice avg).getD 0 ≤ 0) : calculateOutcome avg value = "" := by
  have hnot : ¬ (0 : ℚ) < (parsePrice avg).getD 0 / 100 := by
    rw [not_lt]
    exact div_nonpos_of_nonpos_of_nonneg h (by norm_num)
  simp only [calculateOutcome]
  split
  · rcases firstValueTok value.data with _ | t
    · rfl
    · show (match jsParseFloat (t.filter (fun c => c ≠ ',')) with
        | some _ => ""
        | none => "") = ""
      rcases jsParseFloat (t.filter (fun c => c ≠ ',')) with _ | vn <;> rfl
  · rfl

/-! ### C1: the outcome division formula -/

/-- C1: whenever the priced-quantity text parses to a strictly positive
cents number `p` and the monetary-value text parses (currency symbol and
thousands separators stripped) to `v`, the outcome is `v / (p/100)`
formatted with exactly two decimals. -/
theorem outcome_div_formula (avg value : String) (p v : ℚ)
    (hp : parsePrice avg = some p) (hpos : 0 < p)
    (hv : parseValue value = some v) :
    calculateOutcome avg value = toFixed2 (v / (p / 100)) := by
  have havg : avg ≠ "" := by
    intro he
    rw [he, parsePrice_empty] at hp
    exact Option.noConfusion hp
  have hval : value ≠ "" := by
    intro he
    rw [he, parseValue_empty] at hv
    exact Option.noConfusion hv
  unfold parseValue at hv
  obtain ⟨t, ht, hpf⟩ := Option.bind_eq_some.mp hv
  simp only [calculateOutcome]
  rw [if_pos ⟨havg, hval⟩]
  simp only [ht, hp, Option.getD_some, hpf]
  rw [if_pos (div_pos hpos (by norm_num))]

/-- C1 witness: `"50¢"` and `"$100"` yield `"200.00"`. -/
theorem outcome_div_formula_witness :
    parsePrice "50¢" = some 50 ∧ (0 : ℚ) < 50 ∧
    parseValue "$100" = some 100 ∧
    calculateOutcome "50¢" "$100" = "200.00" := by
  have h1 : parsePrice "50¢" = some 50 := by decide
  have h2 : parseValue "$100" = some 100 := by decide
  refine ⟨h1, by norm_num, h2, ?_⟩
  rw [outcome_div_formula "50¢" "$100" 50 100 h1 (by norm_num) h2]
  have h3 : (100 : ℚ) / (50 / 100) = 200 := by norm_num
  rw [h3, toFixed2, if_neg (by norm_num)]
  have h4 : Int.toNat (Int.floor ((200 : ℚ) * 100 + 1 / 2)) = 20000 := by
    norm_num
    rfl
  rw [h4]
  decide

/-! ### C2: outcome calculation guard behaviour -/

/-- C2 counterexample: with priced-quantity text `"50¢"` and the
unparsable non-empty monetary text `"abc"` the numeric parse fails (no
`[\d,]` token), yet the outcome is `"0.00"`, not the empty string. -/
theorem outcome_parse_failure_counterexample :
    ("abc" : String) ≠ "" ∧ firstValueTok ("abc" : String).data = none ∧
    calculateOutcome "50¢" "abc" = "0.00" ∧
    calculateOutcome "50¢" "abc" ≠ "" := by
  have h1 : ("abc" : String) ≠ "" := by decide
  have hft : firstValueTok ("abc" : String).data = none := rfl
  have hp : parsePrice "50¢" = some 50 := by decide
  have hcalc : calculateOutcome "50¢" "abc" = "0.00" := by
    simp only [calculateOutcome]
    rw [if_pos ⟨by decide, h1⟩]
    simp only [hft, hp, Option.getD_some]
    rw [if_pos (by norm_num : (0 : ℚ) < 50 / 100)]
    rw [zero_div]
    exact toFixed2_zero
  exact ⟨h1, hft, hcalc, by rw [hcalc]; decide⟩

/-- C2 (amended): the outcome computation is total and never emits `NaN`
or `Infinity`; it is empty when either text is empty, when the price token
is missing or parses non-positive, and when the matched value token parses
to `NaN` after comma stripping; but when the monetary text is non-empty
with no `[\d,]` token at all, the value defaults to `0` and a positive
price yields `"0.00"` rather than the empty string. -/
theorem outcome_guards (avg value : String) :
    (calculateOutcome avg value ≠ "NaN" ∧
      calculateOutcome avg value ≠ "Infinity") ∧
    (avg = "" → calculateOutcome avg value = "") ∧
    (value = "" → calculateOutcome avg value = "") ∧
    (parsePrice avg = none → calculateOutcome avg value = "") ∧
    (∀ p, parsePrice avg = some p → p ≤ 0 →
      calculateOutcome avg value = "") ∧
    (∀ t, firstValueTok value.data = some t →
      jsParseFloat (t.filter (fun c => c ≠ ',')) = none →
      calculateOutcome avg value = "") ∧
    (firstValueTok value.data = none → value ≠ "" → ∀ p,
      parsePrice avg = some p → 0 < p →
      calculateOutcome avg value = "0.00") := by
  refine ⟨?_, ?_, ?_, ?_, ?_, ?_, ?_⟩
  · rcases calculateOutcome_cases avg value with h | ⟨q, _, h⟩ <;> rw [h]
    · exact ⟨by decide, by decide⟩
    · constructor <;> intro heq
      · have hd := dot_mem_toFixed2 q
        rw [heq] at hd
        exact absurd hd (by decide)
      · have hd := dot_mem_toFixed2 q
        rw [heq] at hd
        exact absurd hd (by decide)
  · intro he
    simp only [calculateOutcome]
    rw [if_neg (fun hc => hc.1 he)]
  · intro he
    simp only [calculateOutcome]
    rw [if_neg (fun hc => hc.2 he)]
  · intro hn
    exact calc_empty_of_price_nonpos avg value (by simp [hn])
  · intro p hp hple
    exact calc_empty_of_price_nonpos avg value
      (by simp only [hp, Option.getD_some]; exact hple)
  · intro t ht hpf
    simp only [calculateOutcome]
    split
    · simp only [ht, hpf]
    · rfl
  · intro hft hvne p hp hppos
    have havg : avg ≠ "" := by
      intro he
      rw [he, parsePrice_empty] at hp
      exact Option.noConfusion hp
    simp only [calculateOutcome]
    rw [if_pos ⟨havg, hvne⟩]
    simp only [hft, hp, Option.getD_some]
    rw [if_pos (div_pos hppos (by norm_num))]
    rw [zero_div]
    exact toFixed2_zero

/-- C2 witness: a zero price (`"0¢"`) leaves the outcome empty. -/
theorem outcome_guards_witness :
    calculateOutcome "0¢" "$5" = "" :=
  (outcome_guards "0¢" "$5").2.2.2.2.1 0 (by decide) (le_refl 0)

/-! ### C6: emitted-record invariants -/

theorem append_origin_ne_empty (pre href : String) (h : pre.data ≠ []) :
    (pre ++ href) ≠ "" := by
  intro hc
  have h2 : pre.data ++ href.data = [] := congrArg String.data hc
  exact h (List.append_eq_nil.mp h2).1

theorem jsStartsWith_append (pre href p : String)
    (h : p.data <+: pre.data) : jsStartsWith (pre ++ href) p = true := by
  have hpre : (pre ++ href).data = pre.data ++ href.data := rfl
  show (p.data.isPrefixOf (pre ++ href).data) = true
  rw [hpre, List.isPrefixOf_iff_prefix]
  exact h.trans ⟨href.data, rfl⟩

/-- C6: every resolved `marketUrl` is non-empty and absolute (it starts
with `http`, empty hrefs are discarded, root-relative and bare hrefs are
resolved against the canonical origin), and the outcome field is either
empty or a numeric string with exactly two decimal places. -/
theorem emitted_record_invariants :
    (∀ href u, resolveMarketUrl href = some u →
      u ≠ "" ∧ jsStartsWith u "http" = true) ∧
    (resolveMarketUrl "" = none) ∧
    (∀ href, href ≠ "" → jsStartsWith href "http" = false →
      jsStartsWith href "/" = true →
      resolveMarketUrl href = some ("https://polymarket.com" ++ href)) ∧
    (∀ href, href ≠ "" → jsStartsWith href "http" = false →
      jsStartsWith href "/" = false →
      resolveMarketUrl href = some ("https://polymarket.com/" ++ href)) ∧
    (∀ avg value, calculateOutcome avg value = "" ∨
      TwoDecimalString (calculateOutcome avg value)) := by
  refine ⟨?_, rfl, ?_, ?_, ?_⟩
  · intro href u h
    unfold resolveMarketUrl at h
    split at h
    · exact Option.noConfusion h
    · rw [Option.some_inj] at h
      subst h
      split
      · constructor
        · assumption
        · assumption
      · split
        · constructor
          · exact append_origin_ne_empty _ _ (by decide)
          · exact jsStartsWith_append _ _ _ ⟨"s://polymarket.com".data, rfl⟩
        · constructor
          · exact append_origin_ne_empty _ _ (by decide)
          · exact jsStartsWith_append _ _ _ ⟨"s://polymarket.com/".data, rfl⟩
  · intro href h1 h2 h3
    simp [resolveMarketUrl, h1, h2, h3]
  · intro href h1 h2 h3
    simp [resolveMarketUrl, h1, h2, h3]
  · intro avg value
    rcases calculateOutcome_cases avg value with h | ⟨q, hq, h⟩
    · exact Or.inl h
    · right
      rw [h]
      exact toFixed2_two_decimal hq

/-- C6 witness: a root-relative href is resolved against the origin and
the result is a non-empty absolute URL. -/
theorem emitted_record_invariants_witness :
    resolveMarketUrl "/event/abc" =
      some ("https://polymarket.com" ++ "/event/abc") ∧
    ("https://polymarket.com" ++ "/event/abc" : String) ≠ "" ∧
    jsStartsWith ("https://polymarket.com" ++ "/event/abc") "http" = true ∧
    resolveMarketUrl "" = none := by
  have h := emitted_record_invariants
  have hres := h.2.2.1 "/event/abc" (by decide) (by decide) (by decide)
  exact ⟨hres, (h.1 _ _ hres).1, (h.1 _ _ hres).2, h.2.1⟩

/-! ### Shape lemmas for the extraction scans -/
theorem scanFirst_some {α : Type} {f : List Char → Option α} {l : List Char}
    {r : α} (h : scanFirst f l = some r) : ∃ l2, f l2 = some r := by
  induction l with
  | nil => exact ⟨[], h⟩
  | cons a t ih =>
    rw [scanFirst] at h
    rcases hf : f (a :: t) with _ | r2
    · rw [hf] at h
      exact ih h
    · rw [hf] at h
      rw [Option.some_inj] at h
      exact ⟨a :: t, by rw [hf, h]⟩

theorem exists_concat_cent (a b c : List Char) :
    ∃ x, a ++ '.' :: b ++ c ++ ['¢'] = x ++ ['¢'] :=
  ⟨a ++ '.' :: (b ++ c), by simp⟩

theorem exists_concat_cent2 (a b : List Char) :
    ∃ x, a ++ b ++ ['¢'] = x ++ ['¢'] :=
  ⟨a ++ b, by simp⟩

theorem centAt_shape {l : List Char} {m : List Char × List Char}
    (h : centAt l = some m) : ∃ x, m.1 = x ++ ['¢'] := by
  simp only [centAt] at h
  split at h
  · exact Option.noConfusion h
  · split at h
    · rename_i r heq
      rw [Option.some_inj] at h
      subst h
      split at heq
      · split at heq
        · rw [Option.some_inj] at heq
          subst heq
          exact exists_concat_cent _ _ _
        · exact Option.noConfusion heq
      · exact Option.noConfusion heq
    · split at h
      · rw [Option.some_inj] at h
        subst h
        exact exists_concat_cent2 _ _
      · exact Option.noConfusion h

theorem dollarAt_shape {l : List Char} {m : List Char}
    (h : dollarAt l = some m) : ∃ x, m = '$' :: x := by
  simp only [dollarAt] at h
  split at h
  · split at h
    · exact Option.noConfusion h
    · split at h
      · rw [Option.some_inj] at h
        exact ⟨_, h.symm⟩
      · rw [Option.some_inj] at h
        exact ⟨_, h.symm⟩
  · exact Option.noConfusion h

theorem cent_shape_ne_empty {s : String} (h : ∃ x, s.data = x ++ ['¢']) :
    s ≠ "" := by
  obtain ⟨x, hx⟩ := h
  intro hc
  subst hc
  simp at hx

theorem dollar_shape_ne_empty {s : String} (h : ∃ x, s.data = '$' :: x) :
    s ≠ "" := by
  obtain ⟨x, hx⟩ := h
  intro hc
  subst hc
  simp at hx

theorem avgCellScan_shape {c : Dom} {s : String}
    (h : avgCellScan c = some s) : ∃ x, s.data = x ++ ['¢'] := by
  unfold avgCellScan at h
  split at h
  · obtain ⟨cell, _, hmap⟩ := Option.bind_eq_some.mp h
    obtain ⟨m, hm, hs⟩ := Option.map_eq_some'.mp hmap
    unfold firstCentMatch at hm
    obtain ⟨l2, hl2⟩ := scanFirst_some hm
    obtain ⟨x, hx⟩ := centAt_shape hl2
    refine ⟨x, ?_⟩
    rw [← congrArg String.data hs]
    exact hx
  · exact Option.noConfusion h

theorem avgElemScan_shape {c : Dom} {s : String}
    (h : avgElemScan c = some s) : ∃ x, s.data = x ++ ['¢'] := by
  unfold avgElemScan at h
  obtain ⟨pe, _, hmap⟩ := Option.bind_eq_some.mp h
  obtain ⟨m, hm, hs⟩ := Option.map_eq_some'.mp hmap
  unfold firstCentMatch at hm
  obtain ⟨l2, hl2⟩ := scanFirst_some hm
  obtain ⟨x, hx⟩ := centAt_shape hl2
  refine ⟨x, ?_⟩
  rw [← congrArg String.data hs]
  exact hx

theorem avgTextScan_shape {c : Dom} {s : String}
    (h : avgTextScan c = some s) : ∃ x, s.data = x ++ ['¢'] := by
  unfold avgTextScan at h
  obtain ⟨g, _, hs⟩ := Option.map_eq_some'.mp h
  refine ⟨g, ?_⟩
  rw [← congrArg String.data hs]

theorem avgReuseScan_shape {c : Dom} {s : String}
    (h : avgReuseScan c = some s) : ∃ x, s.data = x ++ ['¢'] := by
  unfold avgReuseScan at h
  obtain ⟨g, _, hs⟩ := Option.map_eq_some'.mp h
  refine ⟨g, ?_⟩
  rw [← congrArg String.data hs]

theorem valCellScan_shape {c : Dom} {s : String}
    (h : valCellScan c = some s) : ∃ x, s.data = '$' :: x := by
  unfold valCellScan at h
  split at h
  · obtain ⟨cell, _, hmap⟩ := Option.bind_eq_some.mp h
    obtain ⟨m, hm, hs⟩ := Option.map_eq_some'.mp hmap
    unfold firstDollarMatch at hm
    obtain ⟨l2, hl2⟩ := scanFirst_some hm
    obtain ⟨x, hx⟩ := dollarAt_shape hl2
    refine ⟨x, ?_⟩
    rw [← congrArg String.data hs]
    exact hx
  · exact Option.noConfusion h

theorem valElemKwScan_shape {c : Dom} {s : String}
    (h : valElemKwScan c = some s) : ∃ x, s.data = '$' :: x := by
  unfold valElemKwScan at h
  obtain ⟨pe, _, hmap⟩ := Option.bind_eq_some.mp h
  obtain ⟨m, hm, hs⟩ := Option.map_eq_some'.mp hmap
  unfold firstDollarMatch at hm
  obtain ⟨l2, hl2⟩ := scanFirst_some hm
  obtain ⟨x, hx⟩ := dollarAt_shape hl2
  refine ⟨x, ?_⟩
  rw [← congrArg String.data hs]
  exact hx

theorem valElemFirstScan_shape {c : Dom} {s : String}
    (h : valElemFirstScan c = some s) : ∃ x, s.data = '$' :: x := by
  unfold valElemFirstScan at h
  obtain ⟨pe, _, hmap⟩ := Option.bind_eq_some.mp h
  obtain ⟨m, hm, hs⟩ := Option.map_eq_some'.mp hmap
  unfold firstDollarMatch at hm
  obtain ⟨l2, hl2⟩ := scanFirst_some hm
  obtain ⟨x, hx⟩ := dollarAt_shape hl2
  refine ⟨x, ?_⟩
  rw [← congrArg String.data hs]
  exact hx

theorem dropWhile_concat (p : Char → Bool) (a : Char) (ha : p a = false) :
    ∀ x : List Char, ∃ w, (x ++ [a]).dropWhile p = w ++ [a] := by
  intro x
  induction x with
  | nil =>
    refine ⟨[], ?_⟩
    simp [List.dropWhile_cons, ha]
  | cons c t ih =>
    obtain ⟨w, hw⟩ := ih
    by_cases hc : p c = true
    · exact ⟨w, by rw [List.cons_append, List.dropWhile_cons, if_pos hc, hw]⟩
    · exact ⟨c :: t, by rw [List.cons_append, List.dropWhile_cons, if_neg hc]⟩

theorem jsTrim_dollar (z : List Char) : ∃ w, jsTrim ('$' :: z) = '$' :: w := by
  unfold jsTrim
  have h1 : List.dropWhile wsChar ('$' :: z) = '$' :: z := by
    rw [List.dropWhile_cons, if_neg (by decide)]
  rw [h1, List.reverse_cons]
  obtain ⟨w, hw⟩ := dropWhile_concat wsChar '$' (by decide) z.reverse
  refine ⟨w.reverse, ?_⟩
  rw [hw]
  simp

theorem replaceLabelSep_dollar (label : List Char) (y : List Char)
    (h : matchLabelCi label ('$' :: y) = none) :
    replaceLabelSep label ('$' :: y) = '$' :: replaceLabelSep label y := by
  simp only [replaceLabelSep, labelSepAt, h]

theorem valTextScan_shape {c : Dom} {s : String}
    (h : valTextScan c = some s) : ∃ x, s.data = '$' :: x := by
  simp only [valTextScan] at h
  split at h
  · rename_i m0 hm0
    rw [Option.some_inj] at h
    subst h
    unfold firstDollarMatch at hm0
    obtain ⟨l2, hl2⟩ := scanFirst_some hm0
    obtain ⟨y, hy⟩ := dollarAt_shape hl2
    subst hy
    rw [replaceLabelSep_dollar "value".data y rfl]
    rw [replaceLabelSep_dollar "pnl".data _ rfl]
    rw [replaceLabelSep_dollar "profit".data _ rfl]
    rw [replaceLabelSep_dollar "loss".data _ rfl]
    obtain ⟨w, hw⟩ := jsTrim_dollar
      (replaceLabelSep "loss".data (replaceLabelSep "profit".data
        (replaceLabelSep "pnl".data (replaceLabelSep "value".data y))))
    rw [hw]
    exact ⟨w, rfl⟩
  · obtain ⟨g, _, hs⟩ := Option.map_eq_some'.mp h
    refine ⟨g, ?_⟩
    rw [← congrArg String.data hs]

/-! ### Cascade characterization -/
theorem extractAvgPriceValue_eq (c : Dom) :
    extractAvgPriceValue c =
      (((avgElemScan c).orElse (fun _ => avgCellScan c)).orElse
        (fun _ => (avgTextScan c).orElse (fun _ => avgReuseScan c))).getD "" := by
  rcases hE : avgElemScan c with _ | e
  · rcases hC : avgCellScan c with _ | s
    · rcases hT : avgTextScan c with _ | x
      · simp only [extractAvgPriceValue, hE, hC, hT, Option.getD_none,
          if_true]
        rfl
      · have hne := cent_shape_ne_empty (avgTextScan_shape hT)
        simp only [extractAvgPriceValue, hE, hC, hT, Option.getD_none,
          Option.getD_some, if_true]
        rw [if_neg hne]
        rfl
    · have hne := cent_shape_ne_empty (avgCellScan_shape hC)
      simp only [extractAvgPriceValue, hE, hC, Option.getD_some]
      rw [if_neg hne, if_neg hne]
      rfl
  · have hne := cent_shape_ne_empty (avgElemScan_shape hE)
    simp only [extractAvgPriceValue, hE]
    rw [if_neg hne, if_neg hne]
    rfl

theorem extractValue_eq (c : Dom) :
    extractValue c =
      (((valElemKwScan c).orElse (fun _ => valCellScan c)).orElse
        (fun _ => (valElemFirstScan c).orElse
          (fun _ => valTextScan c))).getD "" := by
  rcases hK : valElemKwScan c with _ | m
  · rcases hC : valCellScan c with _ | s
    · rcases hF : valElemFirstScan c with _ | x
      · simp only [extractValue, hK, hC, hF, Option.getD_none, if_true]
        rfl
      · have hne := dollar_shape_ne_empty (valElemFirstScan_shape hF)
        simp only [extractValue, hK, hC, hF, Option.getD_none,
          Option.getD_some, if_true]
        rw [if_neg hne]
        rfl
    · have hne := dollar_shape_ne_empty (valCellScan_shape hC)
      simp only [extractValue, hK, hC, Option.getD_some]
      rw [if_neg hne, if_neg hne]
      rfl
  · have hne := dollar_shape_ne_empty (valElemKwScan_shape hK)
    simp only [extractValue, hK]
    rw [if_neg hne]
    rfl

theorem extractAvgPriceValue_format (c : Dom) :
    extractAvgPriceValue c = "" ∨
    ∃ x, (extractAvgPriceValue c).data = x ++ ['¢'] := by
  rw [extractAvgPriceValue_eq]
  rcases hE : avgElemScan c with _ | e
  · rcases hC : avgCellScan c with _ | s
    · rcases hT : avgTextScan c with _ | x
      · rcases hR : avgReuseScan c with _ | r
        · exact Or.inl rfl
        · exact Or.inr (avgReuseScan_shape hR)
      · exact Or.inr (avgTextScan_shape hT)
    · exact Or.inr (avgCellScan_shape hC)
  · exact Or.inr (avgElemScan_shape hE)

theorem extractValue_format (c : Dom) :
    extractValue c = "" ∨ ∃ x, (extractValue c).data = '$' :: x := by
  rw [extractValue_eq]
  rcases hK : valElemKwScan c with _ | m
  · rcases hC : valCellScan c with _ | s
    · rcases hF : valElemFirstScan c with _ | x
      · rcases hT : valTextScan c with _ | r
        · exact Or.inl rfl
        · exact Or.inr (valTextScan_shape hT)
      · exact Or.inr (valElemFirstScan_shape hF)
    · exact Or.inr (valCellScan_shape hC)
  · exact Or.inr (valElemKwScan_shape hK)

/-! ### C5: strategy-cascade precedence -/

/-- The table row `["99¢", "at 20¢"]`: the cell scan picks the second
cell (the only one with an average keyword), while the element scan picks
the first price element because its context (own text plus the row text)
matches `at 20¢`. -/
def avgCounterexampleRow : Dom :=
  .elem "TR" [.elem "TD" [.text "99¢"], .elem "TD" [.text "at 20¢"]]

/-- C5 counterexample: the first strategy in the claimed order (the
table-cell scan) produces `"20¢"`, yet the extracted priced quantity is
`"99¢"` — the later keyword-context element scan replaced it. -/
theorem extraction_first_wins_counterexample :
    avgCellScan avgCounterexampleRow = some "20¢" ∧
    extractAvgPriceValue avgCounterexampleRow = "99¢" ∧
    ("99¢" : String) ≠ "20¢" :=
  ⟨by decide, by decide, by decide⟩

/-- C5 (amended): the implemented precedence for the priced quantity is
element-scan, then table-cell scan, then whole-text regex, then reuse of
the earlier capture (the keyword-context element scan runs even when the
cell scan succeeded and overwrites its result); for the monetary value it
is the element scan's keyword branch, then the table-cell scan, then the
first dollar-bearing element, then the whole-text regex; in both cascades
the field is left empty when no strategy succeeds. -/
theorem extraction_cascade_order (c : Dom) :
    extractAvgPriceValue c =
      (((avgElemScan c).orElse (fun _ => avgCellScan c)).orElse
        (fun _ => (avgTextScan c).orElse (fun _ => avgReuseScan c))).getD "" ∧
    extractValue c =
      (((valElemKwScan c).orElse (fun _ => valCellScan c)).orElse
        (fun _ => (valElemFirstScan c).orElse
          (fun _ => valTextScan c))).getD "" :=
  ⟨extractAvgPriceValue_eq c, extractValue_eq c⟩

/-! ### C8 (amended): emitted field names and formats -/

/-- C8 (amended): the emitted JSON keys are `marketName, marketUrl,
outcome, avgPrice, value` (not `pricedQuantityText`/`monetaryValueText`),
the priced-quantity field is empty or ends with the cent sign (as in
`"45¢"`), and the monetary-value field is empty or starts with the dollar
sign (as in `"$5,423"`). -/
theorem position_json_fields :
    (∀ p : Position, (positionJson p).map Prod.fst =
      ["marketName", "marketUrl", "outcome", "avgPrice", "value"]) ∧
    (∀ c : Dom, extractAvgPriceValue c = "" ∨
      ∃ x, (extractAvgPriceValue c).data = x ++ ['¢']) ∧
    (∀ c : Dom, extractValue c = "" ∨
      ∃ x, (extractValue c).data = '$' :: x) :=
  ⟨fun _ => rfl, extractAvgPriceValue_format, extractValue_format⟩
